import Mathlib

/-!
Verification of the clustering engine of the Customer_Segmentation repository
(`src/banking_customer_segmentation.py`, with `src/customer_analysis.py` a near
duplicate of the same engine).

The engine works on Python dictionaries mapping feature names to floats.  We
embed the clustering-relevant part of a record as a function from the fixed,
finite set of normalized feature names to `ℚ` (rationals stand in for Python
floats; every arithmetic operation of the engine other than the final
`math.sqrt` of `calculate_banking_distance` is exact on rationals, and `sqrt`
is modelled with `Real.sqrt`).  All comparisons the engine performs on
distances compare values of the form `sqrt q`; since `Real.sqrt` is strictly
monotone on nonnegatives, those comparisons coincide with the corresponding
comparisons of the radicands, which is proved in the bridge lemmas
`distance_lt_iff` / `distance_sq` below; the executable engine therefore
carries the radicands (`sqDist`).

A second, dictionary-level embedding (association lists `Dict`) is used for
the claims about which *keys* a centroid dictionary carries, which the
function model cannot express.
-/

attribute [local semireducible] Rat.add Rat.mul Rat.inv Rat.sub

namespace CustomerSeg

/-- The normalized feature names produced by `preprocess_banking_data`
(lines 69-82 of `banking_customer_segmentation.py`), in insertion order. -/
inductive Feature
  | age_norm | income_norm | tenure_norm | balance_norm | volatility_norm
  | loan_norm | credit_norm | utilization_norm | delinquency_norm
  | transactions_norm | digital_norm | dormant_norm
  | revenue_norm | crosssell_norm
deriving DecidableEq, Fintype, Repr

/-- A record's (or centroid's) normalized feature vector. -/
abbrev V := Feature → ℚ

/-- The `weights` dictionary of `calculate_banking_distance` (lines 91-104):
twelve features carry a weight, `revenue_norm` and `crosssell_norm` are
absent from the dictionary (`none`). -/
def weights : Feature → Option ℚ
  | .age_norm => some (5/100)
  | .income_norm => some (15/100)
  | .tenure_norm => some (10/100)
  | .balance_norm => some (15/100)
  | .volatility_norm => some (5/100)
  | .loan_norm => some (10/100)
  | .credit_norm => some (10/100)
  | .utilization_norm => some (5/100)
  | .delinquency_norm => some (5/100)
  | .transactions_norm => some (10/100)
  | .digital_norm => some (5/100)
  | .dormant_norm => some (5/100)
  | .revenue_norm => none
  | .crosssell_norm => none

/-- The `features` list of `banking_kmeans` (lines 118-120): the twelve
clustering features, in source order. -/
def features : List Feature :=
  [.age_norm, .income_norm, .tenure_norm, .balance_norm, .volatility_norm,
   .loan_norm, .credit_norm, .utilization_norm, .delinquency_norm,
   .transactions_norm, .digital_norm, .dormant_norm]

/-- Default vector used for out-of-range list reads in statements
(the engine itself never relies on it under the stated hypotheses). -/
def vzero : V := fun _ => 0

/-- One feature's contribution to the distance loop (lines 107-112):
`weights[feature] * (val1 - val2) ** 2` when the feature is in `weights`
(`if feature in weights`), and nothing (zero) otherwise. -/
def sqTerm (v1 v2 : V) (f : Feature) : ℚ :=
  match weights f with
  | some w => w * (v1 f - v2 f) ^ 2
  | none => 0

/-- The loop of `calculate_banking_distance` (lines 106-112): the
accumulated weighted sum of squared differences over `fs`. -/
def sqDist (v1 v2 : V) (fs : List Feature) : ℚ :=
  (fs.map (sqTerm v1 v2)).sum

/-- `calculate_banking_distance` (lines 88-114): `math.sqrt` of the weighted
sum of squared differences. -/
noncomputable def calculate_banking_distance (v1 v2 : V) (fs : List Feature) : ℝ :=
  Real.sqrt ((sqDist v1 v2 fs : ℚ) : ℝ)

/-- Python's `min` over a list of rationals (returns junk `0` on `[]`;
the engine only applies it to nonempty lists). -/
def pyMin : List ℚ → ℚ
  | [] => 0
  | x :: xs => xs.foldl min x

/-- `distances.index(min(distances))` (line 153): the first index at which
the minimum of the list occurs. -/
def idxOfMin (l : List ℚ) : Nat := l.indexOf (pyMin l)

/-- The list of (squared) distances from a record to each current centroid
(lines 149-152).  The comparisons performed on it are equivalent to the
comparisons of the real distances by monotonicity of `Real.sqrt`. -/
def dists (c : V) (cents : List V) : List ℚ :=
  cents.map (fun ct => sqDist c ct features)

/-- `closest_cluster = distances.index(min(distances))` (line 153). -/
def closestIdx (c : V) (cents : List V) : Nat := idxOfMin (dists c cents)

/-- `min([calculate_banking_distance(customer, centroid, features) for
centroid in centroids])` of the seeding rounds (lines 131-134), carried as
the squared value. -/
def minDistToCentroids (cents : List V) (c : V) : ℚ := pyMin (dists c cents)

/-- The body of a seeding round's scan (lines 130-138): keep the record
whose minimum distance to the already-chosen centroids is strictly largest
so far (`if min_distance_to_centroids > max_distance`). -/
def seedStep (cents : List V) (acc : ℚ × Option V) (c : V) : ℚ × Option V :=
  let md := minDistToCentroids cents c
  if acc.1 < md then (md, some c) else acc

/-- One seeding round (lines 127-138): scan the population; `(0, none)`
models `max_distance = 0`, `best_customer = None`. -/
def roundBest (cents : List V) (cs : List V) : Option V :=
  (cs.foldl (seedStep cents) ((0 : ℚ), (none : Option V))).2

/-- The `for _ in range(k-1)` seeding loop (lines 126-141): each round
appends the round's best record, if any (`if best_customer:`). -/
def seedGo (cs : List V) : Nat → List V → List V
  | 0, cents => cents
  | n + 1, cents =>
    match roundBest cents cs with
    | some b => seedGo cs n (cents ++ [b])
    | none => seedGo cs n cents

/-- Seeding (lines 122-141): start from a copy of the first record, then
run `k-1` farthest-point rounds. -/
def seedCentroids (c0 : V) (cs : List V) (k : Nat) : List V :=
  seedGo cs (k - 1) [c0]

/-- The per-record assignment loop (lines 148-154): append each record to
the cluster of its nearest centroid.  `none` models the `IndexError` /
`ValueError` Python raises when the cluster index is out of range or the
centroid list is empty. -/
def assignGo (cents : List V) : List V → List (List V) → Option (List (List V))
  | [], acc => some acc
  | c :: cs, acc =>
    if cents.isEmpty then none
    else if h : closestIdx c cents < acc.length then
      assignGo cents cs
        (acc.set (closestIdx c cents) (acc[closestIdx c cents] ++ [c]))
    else none

/-- The ASSIGNING phase (lines 145-154): `clusters = [[] for _ in range(k)]`
followed by the per-record loop. -/
def assignClusters (cs : List V) (cents : List V) (k : Nat) :
    Option (List (List V)) :=
  assignGo cents cs (List.replicate k [])

/-- `new_centroid[feature] = sum(values) / len(values)` (lines 160-163):
the feature-wise arithmetic mean of a cluster's members. -/
def featMean (cluster : List V) : V :=
  fun f => (cluster.map (fun v => v f)).sum / (cluster.length : ℚ)

/-- The UPDATING loop body (lines 157-166): one pass over `clusters`
building `new_centroids`; an empty cluster reads
`centroids[len(new_centroids)]` from the *old* centroid list, which is
`none` (Python `IndexError`) when out of range. -/
def updateGo (cents : List V) : List (List V) → List V → Option (List V)
  | [], acc => some acc
  | ([]) :: cls, acc =>
    match cents[acc.length]? with
    | some old => updateGo cents cls (acc ++ [old])
    | none => none
  | (x :: xs) :: cls, acc => updateGo cents cls (acc ++ [featMean (x :: xs)])

/-- The UPDATING phase (lines 156-166). -/
def updateCentroids (clusters : List (List V)) (cents : List V) :
    Option (List V) :=
  updateGo cents clusters []

/-- The convergence test (lines 168-176): every feature of every one of the
`k` centroids moved by at most `0.01`. -/
def converged (old new : List V) (k : Nat) : Bool :=
  (List.range k).all (fun i =>
    features.all (fun f =>
      decide (|(old.getD i vzero) f - (new.getD i vzero) f| ≤ 1 / 100)))

/-- The `for iteration in range(max_iterations)` refinement loop
(lines 144-180), with an explicit fuel argument and an iteration counter.
Returns the final centroids, the clusters of the last executed iteration
(those the labeling phase of lines 183-185 reads), and the number of
iterations executed. -/
def loopGo (cs : List V) (k : Nat) :
    Nat → List V → List (List V) → Nat →
    Option (List V × List (List V) × Nat)
  | 0, cents, lastCls, n => some (cents, lastCls, n)
  | fuel + 1, cents, _lastCls, n =>
    match assignClusters cs cents k with
    | none => none
    | some cls =>
      match updateCentroids cls cents with
      | none => none
      | some newC =>
        if converged cents newC k then some (newC, cls, n + 1)
        else loopGo cs k fuel newC cls (n + 1)

/-- `banking_kmeans` (lines 116-187): seeding followed by the refinement
loop.  `none` models the Python exceptions: `customers[0]` on an empty
population, the `NameError` on `clusters` at line 183 when
`max_iterations = 0`, and the index errors propagated from the loop.  The
final labeling (lines 183-185) writes cluster index `i` into every member
of the returned `clusters[i]`, so the returned cluster lists determine the
per-record labels. -/
def banking_kmeans (cs : List V) (k : Nat) (max_iterations : Nat) :
    Option (List V × List (List V) × Nat) :=
  match cs with
  | [] => none
  | c0 :: _ =>
    match max_iterations with
    | 0 => none
    | fuel + 1 =>
      loopGo cs k (fuel + 1) (seedCentroids c0 cs k) [] 0

/-! ### Dictionary-level model

The function model above cannot express which *keys* a Python dictionary
carries.  The claims about centroid feature sets are about keys, so the
relevant operations are additionally embedded at the level of association
lists with Python-dict update semantics (updating an existing key keeps its
position, a new key is appended).  Values are restricted to `ℚ`; the raw
string-valued attributes of a record would only contribute further keys. -/

/-- A Python dictionary with rational values, as an association list in
insertion order. -/
abbrev Dict := List (String × ℚ)

/-- The keys of a dictionary, in insertion order. -/
def dictKeys (d : Dict) : List String := d.map Prod.fst

/-- `d[k]` read access (with default `0` where Python would raise
`KeyError`; every read the modelled code performs hits a present key). -/
def dictFind (d : Dict) (k : String) : ℚ :=
  ((d.find? (fun e => e.1 == k)).map Prod.snd).getD 0

/-- `d[k] = v` Python-dict update: replace in place if the key exists,
append otherwise. -/
def dictSet (d : Dict) (k : String) (v : ℚ) : Dict :=
  if k ∈ dictKeys d then d.map (fun e => if e.1 == k then (k, v) else e)
  else d ++ [(k, v)]

/-- The clustering feature names (`features` of `banking_kmeans`,
lines 118-120), as strings. -/
def clusteringFeatureNames : List String :=
  ["age_norm", "income_norm", "tenure_norm", "balance_norm",
   "volatility_norm", "loan_norm", "credit_norm", "utilization_norm",
   "delinquency_norm", "transactions_norm", "digital_norm", "dormant_norm"]

/-- The full NormalizedVector feature set: the fourteen `*_norm` keys
`preprocess_banking_data` writes (lines 69-82), in insertion order. -/
def normFeatureNames : List String :=
  clusteringFeatureNames ++ ["revenue_norm", "crosssell_norm"]

/-- `preprocess_banking_data` on one record (lines 64-84):
`normalized_customer = customer.copy()` followed by the fourteen
normalized-feature writes, each `raw / reference_max` except the inverted
dormancy feature. -/
def preprocess_banking_data (c : Dict) : Dict :=
  let d := c
  let d := dictSet d "age_norm" (dictFind c "age" / 100)
  let d := dictSet d "income_norm" (dictFind c "income" / 500000)
  let d := dictSet d "tenure_norm" (dictFind c "accounttenureyears" / 30)
  let d := dictSet d "balance_norm" (dictFind c "avgbalance" / 1000000)
  let d := dictSet d "volatility_norm" (dictFind c "balancevolatility" / 3)
  let d := dictSet d "loan_norm" (dictFind c "loanamount" / 1000000)
  let d := dictSet d "credit_norm" (dictFind c "creditscore" / 900)
  let d := dictSet d "utilization_norm" (dictFind c "creditutilizationratio" / 1)
  let d := dictSet d "delinquency_norm" (dictFind c "delinquencycount" / 10)
  let d := dictSet d "transactions_norm" (dictFind c "monthlytransactions" / 300)
  let d := dictSet d "digital_norm" (dictFind c "digitalusage" / 100)
  let d := dictSet d "dormant_norm" (1 - dictFind c "dormantdays" / 365)
  let d := dictSet d "revenue_norm" (dictFind c "revenuecontribution" / 200000)
  let d := dictSet d "crosssell_norm" (dictFind c "crosssellindex" / 10)
  d

/-- `centroids.append(customers[0].copy())` (line 124) at dictionary level:
the seed centroid is a copy of the first record, keys included. -/
def seedCentroidDict (customers : List Dict) : Dict := customers.headD []

/-- Lines 160-164 at dictionary level: `new_centroid = {}` followed by one
mean-valued write per clustering feature. -/
def newCentroidDict (cluster : List Dict) : Dict :=
  clusteringFeatureNames.foldl
    (fun d f =>
      dictSet d f ((cluster.map (fun cd => dictFind cd f)).sum /
        (cluster.length : ℚ)))
    []

/-! ### General list helpers -/

lemma foldl_min_le_init (xs : List ℚ) (x : ℚ) : xs.foldl min x ≤ x := by
  induction xs generalizing x with
  | nil => exact le_rfl
  | cons y ys ih =>
    exact le_trans (ih (min x y)) (min_le_left x y)

lemma foldl_min_le_mem (xs : List ℚ) (x : ℚ) :
    ∀ y ∈ xs, xs.foldl min x ≤ y := by
  induction xs generalizing x with
  | nil => intro y hy; cases hy
  | cons z zs ih =>
    intro y hy
    rcases List.mem_cons.1 hy with h | h
    · subst h
      exact le_trans (foldl_min_le_init zs (min x y)) (min_le_right x y)
    · exact ih (min x z) y h

lemma foldl_min_mem (xs : List ℚ) (x : ℚ) :
    xs.foldl min x = x ∨ xs.foldl min x ∈ xs := by
  induction xs generalizing x with
  | nil => exact Or.inl rfl
  | cons y ys ih =>
    rcases ih (min x y) with h | h
    · rcases min_choice x y with hm | hm
      · exact Or.inl (h.trans hm)
      · exact Or.inr (List.mem_cons.2 (Or.inl (h.trans hm)))
    · exact Or.inr (List.mem_cons.2 (Or.inr h))

lemma pyMin_le {l : List ℚ} {x : ℚ} (hx : x ∈ l) : pyMin l ≤ x := by
  cases l with
  | nil => cases hx
  | cons y ys =>
    rcases List.mem_cons.1 hx with h | h
    · subst h; exact foldl_min_le_init ys x
    · exact foldl_min_le_mem ys y x h

lemma pyMin_mem {l : List ℚ} (h : l ≠ []) : pyMin l ∈ l := by
  cases l with
  | nil => exact absurd rfl h
  | cons y ys =>
    show ys.foldl min y ∈ y :: ys
    rcases foldl_min_mem ys y with h' | h'
    · rw [h']; exact List.mem_cons_self _ _
    · exact List.mem_cons.2 (Or.inr h')

lemma pyMin_pos {l : List ℚ} (h : l ≠ []) (hp : ∀ x ∈ l, 0 < x) :
    0 < pyMin l := hp _ (pyMin_mem h)

lemma idxOfMin_lt {l : List ℚ} (h : l ≠ []) : idxOfMin l < l.length :=
  List.indexOf_lt_length.2 (pyMin_mem h)

lemma get_idxOfMin {l : List ℚ} (h : l ≠ []) :
    l.get ⟨idxOfMin l, idxOfMin_lt h⟩ = pyMin l :=
  List.indexOf_get (idxOfMin_lt h)

lemma sum_eq_zero_iff_of_nonneg {l : List ℚ} (h : ∀ x ∈ l, 0 ≤ x) :
    l.sum = 0 ↔ ∀ x ∈ l, x = 0 := by
  induction l with
  | nil => simp
  | cons x xs ih =>
    have hx : 0 ≤ x := h x (List.mem_cons_self _ _)
    have hxs : ∀ y ∈ xs, 0 ≤ y := fun y hy => h y (List.mem_cons_of_mem _ hy)
    have hs : 0 ≤ xs.sum := List.sum_nonneg hxs
    rw [List.sum_cons]
    constructor
    · intro h0
      have hx0 : x = 0 := by linarith [(by linarith : xs.sum = 0)]
      intro y hy
      rcases List.mem_cons.1 hy with h' | h'
      · exact h' ▸ hx0
      · exact ((ih hxs).1 (by linarith)) y h'
    · intro hall
      have : x = 0 := hall x (List.mem_cons_self _ _)
      have : xs.sum = 0 := (ih hxs).2 fun y hy => hall y (List.mem_cons_of_mem _ hy)
      simp [hall x (List.mem_cons_self _ _), this]

lemma sum_pos_of_mem_pos {l : List ℚ} (h : ∀ x ∈ l, 0 ≤ x) {x : ℚ}
    (hx : x ∈ l) (hp : 0 < x) : 0 < l.sum := by
  rcases lt_or_eq_of_le (List.sum_nonneg h) with h' | h'
  · exact h'
  · exact absurd ((sum_eq_zero_iff_of_nonneg h).1 h'.symm x hx) (ne_of_gt hp)

lemma sum_map_congr {α : Type} {l : List α} {f g : α → ℚ}
    (h : ∀ x ∈ l, f x = g x) : (l.map f).sum = (l.map g).sum := by
  induction l with
  | nil => rfl
  | cons x xs ih =>
    simp only [List.map_cons, List.sum_cons]
    rw [h x (List.mem_cons_self _ _), ih fun y hy => h y (List.mem_cons_of_mem _ hy)]

/-! ### Weights and basic distance facts -/

lemma weights_nonneg {f : Feature} {w : ℚ} (hw : weights f = some w) :
    0 ≤ w := by
  cases f <;> simp [weights] at hw <;> subst hw <;> norm_num

lemma weights_pos {f : Feature} {w : ℚ} (hw : weights f = some w) :
    0 < w := by
  cases f <;> simp [weights] at hw <;> subst hw <;> norm_num

lemma sqTerm_nonneg (v1 v2 : V) (f : Feature) : 0 ≤ sqTerm v1 v2 f := by
  unfold sqTerm
  cases hw : weights f with
  | none => exact le_rfl
  | some w => exact mul_nonneg (weights_nonneg hw) (sq_nonneg _)

lemma sqTerm_comm (v1 v2 : V) (f : Feature) :
    sqTerm v1 v2 f = sqTerm v2 v1 f := by
  unfold sqTerm
  cases weights f with
  | none => rfl
  | some w => ring_nf

lemma sqTerm_self (v : V) (f : Feature) : sqTerm v v f = 0 := by
  unfold sqTerm
  cases weights f with
  | none => rfl
  | some w => ring

lemma sqTerm_eq_zero_iff {v1 v2 : V} {f : Feature} {w : ℚ}
    (hw : weights f = some w) : sqTerm v1 v2 f = 0 ↔ v1 f = v2 f := by
  unfold sqTerm
  rw [hw]
  constructor
  · intro h
    have := mul_eq_zero.1 h
    rcases this with h' | h'
    · exact absurd h' (ne_of_gt (weights_pos hw))
    · have := pow_eq_zero_iff (n := 2) (by norm_num) |>.1 h'
      linarith [sub_eq_zero.1 this]
  · intro h; rw [h]; ring

lemma sqDist_nonneg (v1 v2 : V) (fs : List Feature) :
    0 ≤ sqDist v1 v2 fs :=
  List.sum_nonneg fun x hx => by
    obtain ⟨f, _, rfl⟩ := List.mem_map.1 hx
    exact sqTerm_nonneg v1 v2 f

lemma sqDist_comm (v1 v2 : V) (fs : List Feature) :
    sqDist v1 v2 fs = sqDist v2 v1 fs :=
  sum_map_congr fun f _ => sqTerm_comm v1 v2 f

lemma sqDist_self (v : V) (fs : List Feature) : sqDist v v fs = 0 := by
  unfold sqDist
  rw [sum_map_congr fun f _ => sqTerm_self v f]
  simp

lemma sqDist_eq_zero_iff (v1 v2 : V) (fs : List Feature) :
    sqDist v1 v2 fs = 0 ↔ ∀ f ∈ fs, sqTerm v1 v2 f = 0 := by
  unfold sqDist
  rw [sum_eq_zero_iff_of_nonneg (fun x hx => by
    obtain ⟨f, _, rfl⟩ := List.mem_map.1 hx
    exact sqTerm_nonneg v1 v2 f)]
  constructor
  · intro h f hf; exact h _ (List.mem_map_of_mem _ hf)
  · intro h x hx
    obtain ⟨f, hf, rfl⟩ := List.mem_map.1 hx
    exact h f hf

/-! ### Bridge between the real distance and its rational radicand

The engine only ever *compares* distances (strictly, or via `min` /
`index`), and `Real.sqrt` is strictly monotone on nonnegatives, so every
comparison of `calculate_banking_distance` values coincides with the same
comparison of `sqDist` values.  These lemmas justify running the
executable engine on the radicands. -/

lemma distance_nonneg (v1 v2 : V) (fs : List Feature) :
    0 ≤ calculate_banking_distance v1 v2 fs :=
  Real.sqrt_nonneg _

lemma distance_sq (v1 v2 : V) (fs : List Feature) :
    calculate_banking_distance v1 v2 fs ^ 2 = ((sqDist v1 v2 fs : ℚ) : ℝ) :=
  Real.sq_sqrt (by exact_mod_cast sqDist_nonneg v1 v2 fs)

lemma distance_lt_iff (a b c d : V) (fs fs' : List Feature) :
    calculate_banking_distance a b fs < calculate_banking_distance c d fs' ↔
      sqDist a b fs < sqDist c d fs' := by
  unfold calculate_banking_distance
  rw [Real.sqrt_lt_sqrt_iff (by exact_mod_cast sqDist_nonneg a b fs)]
  exact_mod_cast Iff.rfl

lemma distance_le_iff (a b c d : V) (fs fs' : List Feature) :
    calculate_banking_distance a b fs ≤ calculate_banking_distance c d fs' ↔
      sqDist a b fs ≤ sqDist c d fs' := by
  rw [← not_lt, distance_lt_iff, not_lt]

lemma distance_eq_zero_iff (v1 v2 : V) (fs : List Feature) :
    calculate_banking_distance v1 v2 fs = 0 ↔ sqDist v1 v2 fs = 0 := by
  unfold calculate_banking_distance
  rw [Real.sqrt_eq_zero (by exact_mod_cast sqDist_nonneg v1 v2 fs)]
  exact_mod_cast Iff.rfl

/-! ### Structure of the ASSIGNING phase -/

lemma dists_length (c : V) (cents : List V) :
    (dists c cents).length = cents.length := by
  simp [dists]

lemma dists_ne_nil (c : V) {cents : List V} (h : cents ≠ []) :
    dists c cents ≠ [] := by
  simp [dists, h]

lemma closestIdx_lt {c : V} {cents : List V} (h : cents ≠ []) :
    closestIdx c cents < cents.length := by
  have := idxOfMin_lt (dists_ne_nil c h)
  simpa [closestIdx, dists_length] using this

lemma getD_eq_get {α : Type} (l : List α) (d : α) {i : Nat}
    (h : i < l.length) : l.getD i d = l.get ⟨i, h⟩ := by
  simp [List.getD_eq_getElem?_getD, List.getElem?_eq_getElem h,
    List.get_eq_getElem]

lemma getD_dists (c : V) {cents : List V} {i : Nat} (h : i < cents.length) :
    (dists c cents).getD i 0 = sqDist c (cents.getD i vzero) features := by
  simp [dists, List.getD_eq_getElem?_getD, List.getElem?_map,
    List.getElem?_eq_getElem h]

/-- The chosen index minimizes the squared distance over all centroids. -/
lemma closestIdx_min {c : V} {cents : List V} (h : cents ≠ []) :
    ∀ j, j < cents.length →
      sqDist c (cents.getD (closestIdx c cents) vzero) features ≤
        sqDist c (cents.getD j vzero) features := by
  intro j hj
  have hd : dists c cents ≠ [] := dists_ne_nil c h
  have hlt : idxOfMin (dists c cents) < (dists c cents).length := idxOfMin_lt hd
  have hlt' : idxOfMin (dists c cents) < cents.length := by
    rwa [dists_length] at hlt
  have hj' : j < (dists c cents).length := by rwa [dists_length]
  have h1 : (dists c cents).getD (idxOfMin (dists c cents)) 0 =
      pyMin (dists c cents) := by
    rw [getD_eq_get _ _ hlt]; exact get_idxOfMin hd
  have h2 : pyMin (dists c cents) ≤ (dists c cents).getD j 0 := by
    rw [getD_eq_get _ _ hj']; exact pyMin_le (List.get_mem _ _ _)
  have h3 := getD_dists c hlt'
  have h4 := getD_dists c hj
  show sqDist c (cents.getD (idxOfMin (dists c cents)) vzero) features ≤ _
  rw [← h3, ← h4, h1]
  exact h2

lemma assignGo_some {cents : List V} (hne : cents ≠ []) :
    ∀ (cs : List V) (acc : List (List V)), cents.length ≤ acc.length →
      ∃ cls, assignGo cents cs acc = some cls := by
  intro cs
  induction cs with
  | nil => intro acc _; exact ⟨acc, rfl⟩
  | cons c cs ih =>
    intro acc hlen
    have hi : closestIdx c cents < acc.length :=
      lt_of_lt_of_le (closestIdx_lt hne) hlen
    have hlen' : cents.length ≤ (acc.set (closestIdx c cents)
        (acc[closestIdx c cents] ++ [c])).length := by
      simpa using hlen
    obtain ⟨cls, hcls⟩ := ih _ hlen'
    refine ⟨cls, ?_⟩
    rw [assignGo]
    rw [if_neg (by simpa [List.isEmpty_iff] using hne), dif_pos hi]
    exact hcls

lemma assignGo_length {cents : List V} :
    ∀ {cs : List V} {acc cls : List (List V)},
      assignGo cents cs acc = some cls → cls.length = acc.length := by
  intro cs
  induction cs with
  | nil =>
    intro acc cls h
    rw [assignGo] at h
    cases h
    rfl
  | cons c cs ih =>
    intro acc cls h
    rw [assignGo] at h
    split at h
    · simp at h
    · split at h
      · exact (ih h).trans (by simp)
      · simp at h

lemma assignGo_getD {cents : List V} :
    ∀ {cs : List V} {acc cls : List (List V)},
      assignGo cents cs acc = some cls →
      ∀ j, cls.getD j [] = acc.getD j [] ++
        cs.filter (fun c => closestIdx c cents == j) := by
  intro cs
  induction cs with
  | nil =>
    intro acc cls h j
    rw [assignGo] at h
    cases h
    simp
  | cons c cs ih =>
    intro acc cls h j
    rw [assignGo] at h
    split at h
    · simp at h
    · split at h
      case isTrue hi =>
        rw [ih h j, List.filter_cons]
        by_cases hj : closestIdx c cents = j
        · subst hj
          simp only [beq_self_eq_true, cond_true]
          have hset : (acc.set (closestIdx c cents)
              (acc[closestIdx c cents] ++ [c])).getD (closestIdx c cents) [] =
              acc[closestIdx c cents] ++ [c] := by
            simp [List.getD_eq_getElem?_getD, List.getElem?_set_self hi]
          have hacc : acc.getD (closestIdx c cents) [] =
              acc[closestIdx c cents] := by
            simp [List.getD_eq_getElem?_getD, List.getElem?_eq_getElem hi]
          rw [hset, hacc]
          simp
        · have hbeq : (closestIdx c cents == j) = false := by
            simpa using hj
          simp only [hbeq, cond_false]
          have hset : (acc.set (closestIdx c cents)
              (acc[closestIdx c cents] ++ [c])).getD j [] = acc.getD j [] := by
            simp [List.getD_eq_getElem?_getD, List.getElem?_set_ne hj]
          rw [hset]
          simp
      case isFalse => simp at h

lemma flatten_set_append {α : Type} :
    ∀ (acc : List (List α)) (i : Nat) (x : List α) (h : i < acc.length),
      ((acc.set i (acc[i] ++ x)).flatten).Perm (acc.flatten ++ x) := by
  intro acc
  induction acc with
  | nil => intro i x h; cases h
  | cons l ls ih =>
    intro i x h
    cases i with
    | zero =>
      simp only [List.set_cons_zero, List.flatten_cons, List.getElem_cons_zero]
      rw [List.append_assoc, List.append_assoc]
      exact List.Perm.append_left l List.perm_append_comm
    | succ i' =>
      have h' : i' < ls.length := Nat.lt_of_succ_lt_succ h
      simp only [List.set_cons_succ, List.flatten_cons, List.getElem_cons_succ]
      rw [List.append_assoc]
      exact List.Perm.append_left l (ih i' x h')

lemma assignGo_flatten_perm {cents : List V} :
    ∀ {cs : List V} {acc cls : List (List V)},
      assignGo cents cs acc = some cls →
      cls.flatten.Perm (acc.flatten ++ cs) := by
  intro cs
  induction cs with
  | nil =>
    intro acc cls h
    rw [assignGo] at h
    cases h
    simp
  | cons c cs ih =>
    intro acc cls h
    rw [assignGo] at h
    split at h
    · simp at h
    · split at h
      case isTrue hi =>
        have h1 := ih h
        have h2 := flatten_set_append acc (closestIdx c cents) [c] hi
        have heq : (acc.flatten ++ [c]) ++ cs = acc.flatten ++ (c :: cs) := by
          rw [List.append_assoc, List.singleton_append]
        exact h1.trans (heq ▸ h2.append_right cs)
      case isFalse => simp at h

lemma flatten_replicate_nil {α : Type} :
    ∀ n : Nat, (List.replicate n ([] : List α)).flatten = [] := by
  intro n
  induction n with
  | zero => rfl
  | succ n ih => simp [List.replicate_succ, ih]

/-! ### Structure of the UPDATING phase -/

lemma updateGo_spec {cents : List V} :
    ∀ (cls : List (List V)) (acc C' : List V),
      updateGo cents cls acc = some C' →
      C'.length = acc.length + cls.length ∧
      (∀ j, j < acc.length → C'.getD j vzero = acc.getD j vzero) ∧
      (∀ j, j < cls.length → C'.getD (acc.length + j) vzero =
        if cls.getD j [] = [] then cents.getD (acc.length + j) vzero
        else featMean (cls.getD j [])) := by
  intro cls
  induction cls with
  | nil =>
    intro acc C' h
    rw [updateGo] at h
    cases h
    exact ⟨rfl, fun j _ => rfl, fun j hj => absurd hj (Nat.not_lt_zero j)⟩
  | cons cl cls ih =>
    intro acc C' h
    have step :
        ∀ (x : V), updateGo cents cls (acc ++ [x]) = some C' →
          (cls.getD 0 [] = cls.getD 0 []) →
          C'.length = acc.length + (cl :: cls).length ∧
          (∀ j, j < acc.length → C'.getD j vzero = acc.getD j vzero) ∧
          (∀ j, j < cls.length → C'.getD (acc.length + 1 + j) vzero =
            if cls.getD j [] = [] then cents.getD (acc.length + 1 + j) vzero
            else featMean (cls.getD j [])) ∧
          C'.getD acc.length vzero = x := by
      intro x hrec _
      obtain ⟨hlen, hpre, hpost⟩ := ih (acc ++ [x]) C' hrec
      have hlacc : (acc ++ [x]).length = acc.length + 1 := by simp
      refine ⟨?_, ?_, ?_, ?_⟩
      · rw [hlen, hlacc]; simp; omega
      · intro j hj
        rw [hpre j (by simp; omega)]
        simp [List.getD_eq_getElem?_getD, List.getElem?_append_left hj]
      · intro j hj
        have := hpost j hj
        rw [hlacc] at this
        exact this
      · have := hpre acc.length (by simp)
        rw [this]
        simp [List.getD_eq_getElem?_getD, List.getElem?_concat_length]
    match hcl : cl with
    | [] =>
      subst hcl
      rw [updateGo] at h
      cases hget : cents[acc.length]? with
      | none => rw [hget] at h; cases h
      | some old =>
        rw [hget] at h
        obtain ⟨hlen, hpre, hpost, hat⟩ := step old h rfl
        refine ⟨hlen, hpre, ?_⟩
        intro j hj
        cases j with
        | zero =>
          have hc : cents.getD acc.length vzero = old := by
            simp [List.getD_eq_getElem?_getD, hget]
          rw [Nat.add_zero, List.getD_cons_zero, if_pos rfl, hat, hc]
        | succ j' =>
          have hj' : j' < cls.length := Nat.lt_of_succ_lt_succ hj
          have := hpost j' hj'
          have harith : acc.length + 1 + j' = acc.length + (j' + 1) := by omega
          rw [harith] at this
          simpa using this
    | x :: xs =>
      subst hcl
      rw [updateGo] at h
      obtain ⟨hlen, hpre, hpost, hat⟩ := step (featMean (x :: xs)) h rfl
      refine ⟨hlen, hpre, ?_⟩
      intro j hj
      cases j with
      | zero =>
        rw [Nat.add_zero, List.getD_cons_zero, if_neg (by simp), hat]
      | succ j' =>
        have hj' : j' < cls.length := Nat.lt_of_succ_lt_succ hj
        have := hpost j' hj'
        have harith : acc.length + 1 + j' = acc.length + (j' + 1) := by omega
        rw [harith] at this
        simpa using this

/-- `updateCentroids` characterization: on success, the new list has one
centroid per cluster, the mean for nonempty clusters and the old centroid
at the same index for empty ones. -/
lemma updateCentroids_spec {cls : List (List V)} {cents C' : List V}
    (h : updateCentroids cls cents = some C') :
    C'.length = cls.length ∧
    ∀ j, j < cls.length → C'.getD j vzero =
      if cls.getD j [] = [] then cents.getD j vzero
      else featMean (cls.getD j []) := by
  obtain ⟨hlen, _, hpost⟩ := updateGo_spec cls [] C' h
  refine ⟨by simpa using hlen, fun j hj => ?_⟩
  have := hpost j hj
  simpa using this

/-- The UPDATING pass fails (Python `IndexError`) whenever some cluster at
index at least `cents.length` is empty. -/
lemma updateGo_none {cents : List V} :
    ∀ (cls : List (List V)) (acc : List V),
      (∃ j, j < cls.length ∧ cls.getD j [] = [] ∧
        cents.length ≤ acc.length + j) →
      updateGo cents cls acc = none := by
  intro cls
  induction cls with
  | nil =>
    intro acc ⟨j, hj, _, _⟩
    exact absurd hj (Nat.not_lt_zero j)
  | cons cl cls ih =>
    intro acc ⟨j, hj, hempty, hge⟩
    cases j with
    | zero =>
      simp only [List.getD_cons_zero] at hempty
      subst hempty
      rw [updateGo]
      have : cents[acc.length]? = none :=
        List.getElem?_eq_none (by omega)
      rw [this]
    | succ j' =>
      have hj' : j' < cls.length := Nat.lt_of_succ_lt_succ hj
      have hempty' : cls.getD j' [] = [] := by simpa using hempty
      match cl with
      | [] =>
        rw [updateGo]
        cases hget : cents[acc.length]? with
        | none => rfl
        | some old =>
          exact ih (acc ++ [old]) ⟨j', hj', hempty', by simp; omega⟩
      | x :: xs =>
        rw [updateGo]
        exact ih (acc ++ [featMean (x :: xs)]) ⟨j', hj', hempty', by simp; omega⟩

/-! ### Mean optimality: the arithmetic mean minimizes summed squared
deviations, feature by feature -/

lemma sum_map_quadratic (xs : List ℚ) (d : ℚ) :
    (xs.map (fun x => (x - d) ^ 2)).sum =
      (xs.map (fun x => x ^ 2)).sum - 2 * d * xs.sum +
        (xs.length : ℚ) * d ^ 2 := by
  induction xs with
  | nil => simp
  | cons x xs ih =>
    simp only [List.map_cons, List.sum_cons, List.length_cons, ih]
    push_cast
    ring

lemma sum_sq_dev_le_aux (xs : List ℚ) (μ c : ℚ)
    (h : μ * (xs.length : ℚ) = xs.sum) :
    (xs.map (fun x => (x - μ) ^ 2)).sum ≤
      (xs.map (fun x => (x - c) ^ 2)).sum := by
  rw [sum_map_quadratic, sum_map_quadratic, ← h]
  nlinarith [mul_nonneg
    (show (0 : ℚ) ≤ (xs.length : ℚ) from Nat.cast_nonneg _)
    (sq_nonneg (c - μ))]

lemma sum_sq_dev_mean_le (xs : List ℚ) (hne : xs ≠ []) (c : ℚ) :
    (xs.map (fun x => (x - xs.sum / (xs.length : ℚ)) ^ 2)).sum ≤
      (xs.map (fun x => (x - c) ^ 2)).sum := by
  have hn : (0 : ℚ) < (xs.length : ℚ) := by
    have : 0 < xs.length := List.length_pos.2 hne
    exact_mod_cast this
  exact sum_sq_dev_le_aux xs _ c (by field_simp)

lemma sum_map_swap {α β : Type} (vs : List α) (fs : List β) (g : α → β → ℚ) :
    (vs.map (fun v => (fs.map (fun f => g v f)).sum)).sum =
      (fs.map (fun f => (vs.map (fun v => g v f)).sum)).sum := by
  induction vs with
  | nil => simp
  | cons v vs ih =>
    simp only [List.map_cons, List.sum_cons, ih]
    rw [List.sum_map_add]

/-- The feature-wise mean of a nonempty cluster minimizes the summed
squared weighted distance over its members. -/
lemma featMean_opt (vs : List V) (hne : vs ≠ []) (ct : V) (fs : List Feature) :
    (vs.map (fun v => sqDist v (featMean vs) fs)).sum ≤
      (vs.map (fun v => sqDist v ct fs)).sum := by
  unfold sqDist
  rw [sum_map_swap vs fs (fun v f => sqTerm v (featMean vs) f),
    sum_map_swap vs fs (fun v f => sqTerm v ct f)]
  apply List.sum_le_sum
  intro f _
  unfold sqTerm
  cases hw : weights f with
  | none => simp
  | some w =>
    simp only
    have hxs : vs.map (fun v => v f) ≠ [] := by simp [hne]
    have key := sum_sq_dev_mean_le (vs.map (fun v => v f)) hxs (ct f)
    rw [List.map_map, List.map_map, List.length_map] at key
    have hmean : featMean vs f =
        (vs.map (fun v => v f)).sum / (vs.length : ℚ) := rfl
    rw [List.sum_map_mul_left, List.sum_map_mul_left]
    apply mul_le_mul_of_nonneg_left _ (weights_nonneg hw)
    rw [hmean]
    exact key

/-! ### Regrouping a per-record sum into per-cluster sums -/

lemma sum_range_ite (k : Nat) (i : Nat) (hi : i < k) (g : Nat → ℚ) :
    ((List.range k).map (fun j => if i = j then g j else 0)).sum = g i := by
  induction k with
  | zero => cases hi
  | succ k ih =>
    rw [List.range_succ]
    simp only [List.map_append, List.sum_append, List.map_cons, List.map_nil,
      List.sum_cons, List.sum_nil]
    by_cases h : i = k
    · subst h
      have hz : ((List.range i).map (fun j => if i = j then g j else 0)).sum
          = ((List.range i).map (fun _ => (0 : ℚ))).sum :=
        sum_map_congr fun j hj => by
          rw [if_neg (by
            have := List.mem_range.1 hj
            omega)]
      rw [hz]
      simp
    · have hi' : i < k := by
        rcases Nat.lt_succ_iff_lt_or_eq.1 hi with h' | h'
        · exact h'
        · exact absurd h' h
      rw [ih hi', if_neg h]
      simp

lemma sum_partition (cs : List V) (A : V → Nat) (k : Nat)
    (hA : ∀ c ∈ cs, A c < k) (g : V → Nat → ℚ) :
    ((List.range k).map (fun j =>
      ((cs.filter (fun c => A c == j)).map (fun c => g c j)).sum)).sum =
      (cs.map (fun c => g c (A c))).sum := by
  induction cs with
  | nil => simp
  | cons c cs ih =>
    have hc : A c < k := hA c (List.mem_cons_self _ _)
    have hcs : ∀ x ∈ cs, A x < k := fun x hx => hA x (List.mem_cons_of_mem _ hx)
    simp only [List.map_cons, List.sum_cons]
    rw [← ih hcs]
    have hterm : ∀ j ∈ List.range k,
        (((c :: cs).filter (fun x => A x == j)).map (fun x => g x j)).sum =
          (if A c = j then g c j else 0) +
            ((cs.filter (fun x => A x == j)).map (fun x => g x j)).sum := by
      intro j _
      rw [List.filter_cons]
      by_cases h : A c = j
      · simp [h]
      · simp [h]
    rw [sum_map_congr hterm, List.sum_map_add,
      sum_range_ite k (A c) hc (fun j => g c j)]

/-! ### ASSIGNING-phase corollaries -/

lemma assignClusters_length {cs cents : List V} {k : Nat}
    {cls : List (List V)} (h : assignClusters cs cents k = some cls) :
    cls.length = k := by
  have := assignGo_length h
  simpa using this

lemma assignClusters_getD {cs cents : List V} {k : Nat}
    {cls : List (List V)} (h : assignClusters cs cents k = some cls) :
    ∀ j, j < k → cls.getD j [] =
      cs.filter (fun c => closestIdx c cents == j) := by
  intro j hj
  have := assignGo_getD h j
  simpa [List.getD_eq_getElem?_getD, List.getElem?_replicate_of_lt hj]
    using this

/-! ### Total within-cluster cost -/

/-- The total within-cluster weighted squared distance: the sum over all
records of the squared weighted distance to the centroid of the cluster
the record is assigned to (assignment = nearest centroid, ties to the
lowest index, as in the ASSIGNING phase). -/
noncomputable def totalCost (cs cents : List V) : ℝ :=
  (cs.map (fun c =>
    calculate_banking_distance c (cents.getD (closestIdx c cents) vzero)
      features ^ 2)).sum

/-- The same quantity computed on the rational radicands. -/
def totalCostQ (cs cents : List V) : ℚ :=
  (cs.map (fun c =>
    sqDist c (cents.getD (closestIdx c cents) vzero) features)).sum

lemma cast_list_sum_map (l : List V) (f : V → ℚ) :
    (((l.map f).sum : ℚ) : ℝ) = (l.map (fun x => ((f x : ℚ) : ℝ))).sum := by
  induction l with
  | nil => simp
  | cons x xs ih =>
    simp only [List.map_cons, List.sum_cons, Rat.cast_add, ih]

lemma totalCost_eq (cs cents : List V) :
    totalCost cs cents = ((totalCostQ cs cents : ℚ) : ℝ) := by
  unfold totalCost totalCostQ
  rw [cast_list_sum_map]
  congr 1
  apply List.map_congr_left
  intro c _
  exact distance_sq _ _ _

/-- One full ASSIGNING + UPDATING iteration does not increase the total
within-cluster cost (on the radicands). -/
lemma totalCostQ_step_le {cs cents : List V} {k : Nat}
    {cls : List (List V)} {C' : List V}
    (hk : 0 < k) (hlen : cents.length = k)
    (ha : assignClusters cs cents k = some cls)
    (hu : updateCentroids cls cents = some C') :
    totalCostQ cs C' ≤ totalCostQ cs cents := by
  have hne : cents ≠ [] := by
    intro h; rw [h] at hlen; simp at hlen; omega
  have hclen : cls.length = k := assignClusters_length ha
  obtain ⟨hC'len, hC'⟩ := updateCentroids_spec hu
  have hC'len' : C'.length = k := by rw [hC'len, hclen]
  have hC'ne : C' ≠ [] := by
    intro h; rw [h] at hC'len'; simp at hC'len'; omega
  have stepA : totalCostQ cs C' ≤
      (cs.map (fun c =>
        sqDist c (C'.getD (closestIdx c cents) vzero) features)).sum := by
    unfold totalCostQ
    apply List.sum_le_sum
    intro c _
    exact closestIdx_min hC'ne (closestIdx c cents)
      (by rw [hC'len', ← hlen]; exact closestIdx_lt hne)
  have hA : ∀ c ∈ cs, closestIdx c cents < k := fun c _ => by
    rw [← hlen]; exact closestIdx_lt hne
  have hpart1 := sum_partition cs (fun c => closestIdx c cents) k hA
    (fun c j => sqDist c (C'.getD j vzero) features)
  have hpart2 := sum_partition cs (fun c => closestIdx c cents) k hA
    (fun c j => sqDist c (cents.getD j vzero) features)
  have stepB : (cs.map (fun c =>
      sqDist c (C'.getD (closestIdx c cents) vzero) features)).sum ≤
      totalCostQ cs cents := by
    unfold totalCostQ
    rw [← hpart1, ← hpart2]
    apply List.sum_le_sum
    intro j hj
    have hjk : j < k := List.mem_range.1 hj
    have hfilter : cls.getD j [] =
        cs.filter (fun c => closestIdx c cents == j) :=
      assignClusters_getD ha j hjk
    by_cases hemp : cs.filter (fun c => closestIdx c cents == j) = []
    · rw [hemp]; simp
    · have hC'j := hC' j (by rw [hclen]; exact hjk)
      rw [hfilter, if_neg hemp] at hC'j
      rw [hC'j]
      exact featMean_opt _ hemp _ features
  exact le_trans stepA stepB

/-! ### Refinement-loop lemmas -/

lemma loopGo_count {cs : List V} {k : Nat} :
    ∀ (fuel : Nat) (cents : List V) (cls0 : List (List V)) (n : Nat) r,
      loopGo cs k fuel cents cls0 n = some r → r.2.2 ≤ n + fuel := by
  intro fuel
  induction fuel with
  | zero =>
    intro cents cls0 n r h
    rw [loopGo] at h
    cases h
    simp
  | succ fuel ih =>
    intro cents cls0 n r h
    rw [loopGo] at h
    split at h
    · simp at h
    · split at h
      · simp at h
      · split at h
        · cases h; simp
        · have := ih _ _ _ _ h
          omega

/-- Every successful run of the loop with positive fuel returns clusters
computed by an ASSIGNING pass against some centroid list `Cp`, and
centroids that are exactly the UPDATING pass applied to those clusters and
that same `Cp` — i.e. the returned centroids are one update *ahead* of the
returned clusters. -/
lemma loopGo_struct {cs : List V} {k : Nat} :
    ∀ (fuel : Nat) (cents : List V) (cls0 : List (List V)) (n : Nat) r,
      loopGo cs k (fuel + 1) cents cls0 n = some r →
      ∃ Cp, assignClusters cs Cp k = some r.2.1 ∧
        updateCentroids r.2.1 Cp = some r.1 := by
  intro fuel
  induction fuel with
  | zero =>
    intro cents cls0 n r h
    rw [loopGo] at h
    split at h
    · simp at h
    next cls ha =>
      split at h
      · simp at h
      next newC hu =>
        split at h
        · cases h; exact ⟨cents, ha, hu⟩
        · rw [loopGo] at h; cases h; exact ⟨cents, ha, hu⟩
  | succ fuel ih =>
    intro cents cls0 n r h
    rw [loopGo] at h
    split at h
    · simp at h
    next cls ha =>
      split at h
      · simp at h
      next newC hu =>
        split at h
        · cases h; exact ⟨cents, ha, hu⟩
        · exact ih _ _ _ _ h

/-! ### Seeding: farthest-point selection -/

/-- The projection of a vector onto the clustering (weighted) features:
only these influence any distance the engine computes. -/
def wProj (v : V) : List ℚ := features.map v

lemma list_map_eq_iff {α β : Type} (fs : List α) (a b : α → β) :
    fs.map a = fs.map b ↔ ∀ f ∈ fs, a f = b f := by
  induction fs with
  | nil => simp
  | cons f fs ih =>
    simp only [List.map_cons, List.cons.injEq, ih, List.mem_cons]
    constructor
    · rintro ⟨h1, h2⟩ g hg
      rcases hg with rfl | hg
      · exact h1
      · exact h2 g hg
    · intro h
      exact ⟨h f (Or.inl rfl), fun g hg => h g (Or.inr hg)⟩

lemma features_weighted : ∀ f ∈ features, (weights f).isSome := by decide

lemma sqTerm_zero_of_eq {a b : V} {f : Feature} (h : a f = b f) :
    sqTerm a b f = 0 := by
  unfold sqTerm
  cases weights f with
  | none => rfl
  | some w => rw [h]; ring

lemma sqDist_zero_of_wProj_eq {a b : V} (h : wProj a = wProj b) :
    sqDist a b features = 0 := by
  rw [sqDist_eq_zero_iff]
  intro f hf
  exact sqTerm_zero_of_eq ((list_map_eq_iff features a b).1 h f hf)

lemma sqDist_pos_of_wProj_ne {a b : V} (h : wProj a ≠ wProj b) :
    0 < sqDist a b features := by
  have : ∃ f ∈ features, a f ≠ b f := by
    by_contra hcon
    push_neg at hcon
    exact h ((list_map_eq_iff features a b).2 hcon)
  obtain ⟨f, hf, hne⟩ := this
  have hw : (weights f).isSome := features_weighted f hf
  obtain ⟨w, hw'⟩ := Option.isSome_iff_exists.1 hw
  have hterm : 0 < sqTerm a b f := by
    unfold sqTerm
    rw [hw']
    have hsq : 0 < (a f - b f) ^ 2 :=
      lt_of_le_of_ne (sq_nonneg _)
        (Ne.symm (pow_ne_zero 2 (sub_ne_zero.2 hne)))
    exact mul_pos (weights_pos hw') hsq
  exact sum_pos_of_mem_pos
    (fun x hx => by
      obtain ⟨g, _, rfl⟩ := List.mem_map.1 hx
      exact sqTerm_nonneg a b g)
    (List.mem_map_of_mem _ hf) hterm

lemma foldl_seedStep_spec (cents : List V) (cs : List V) :
    ∀ (l : List V) (m : ℚ) (b : Option V),
      0 ≤ m →
      (b = none → m = 0) →
      (∀ x, b = some x → x ∈ cs ∧ minDistToCentroids cents x = m) →
      (∀ x ∈ l, x ∈ cs) →
      0 ≤ (l.foldl (seedStep cents) (m, b)).1 ∧
      ((l.foldl (seedStep cents) (m, b)).2 = none →
        (l.foldl (seedStep cents) (m, b)).1 = 0) ∧
      (∀ x, (l.foldl (seedStep cents) (m, b)).2 = some x →
        x ∈ cs ∧
          minDistToCentroids cents x = (l.foldl (seedStep cents) (m, b)).1) ∧
      m ≤ (l.foldl (seedStep cents) (m, b)).1 ∧
      (∀ c ∈ l,
        minDistToCentroids cents c ≤ (l.foldl (seedStep cents) (m, b)).1) := by
  intro l
  induction l with
  | nil =>
    intro m b h0 hn hs _
    exact ⟨h0, hn, hs, le_rfl, fun c hc => absurd hc (List.not_mem_nil c)⟩
  | cons c l ih =>
    intro m b h0 hn hs hmem
    have hmem' : ∀ x ∈ l, x ∈ cs := fun x hx => hmem x (List.mem_cons_of_mem _ hx)
    have hcmem : c ∈ cs := hmem c (List.mem_cons_self _ _)
    simp only [List.foldl_cons]
    by_cases hlt : m < minDistToCentroids cents c
    · have hstep : seedStep cents (m, b) c =
          (minDistToCentroids cents c, some c) := by
        unfold seedStep
        rw [if_pos hlt]
      rw [hstep]
      obtain ⟨g1, g2, g3, g4, g5⟩ := ih (minDistToCentroids cents c) (some c)
        (le_of_lt (lt_of_le_of_lt h0 hlt))
        (fun h => by cases h)
        (fun x hx => by cases hx; exact ⟨hcmem, rfl⟩)
        hmem'
      refine ⟨g1, g2, g3, le_trans (le_of_lt hlt) g4, ?_⟩
      intro x hx
      rcases List.mem_cons.1 hx with rfl | hx
      · exact g4
      · exact g5 x hx
    · have hstep : seedStep cents (m, b) c = (m, b) := by
        unfold seedStep
        rw [if_neg hlt]
      rw [hstep]
      obtain ⟨g1, g2, g3, g4, g5⟩ := ih m b h0 hn hs hmem'
      refine ⟨g1, g2, g3, g4, ?_⟩
      intro x hx
      rcases List.mem_cons.1 hx with rfl | hx
      · exact le_trans (not_lt.1 hlt) g4
      · exact g5 x hx

lemma roundBest_exists_pos {cents cs : List V}
    (h : ∃ c ∈ cs, 0 < minDistToCentroids cents c) :
    ∃ b, roundBest cents cs = some b ∧ b ∈ cs ∧
      0 < minDistToCentroids cents b := by
  obtain ⟨c, hc, hpos⟩ := h
  obtain ⟨g1, g2, g3, g4, g5⟩ := foldl_seedStep_spec cents cs cs 0 none
    le_rfl (fun _ => rfl) (fun x hx => by cases hx) (fun x hx => hx)
  have hcle := g5 c hc
  cases hr : (cs.foldl (seedStep cents) (0, none)).2 with
  | none =>
    have := g2 hr
    linarith
  | some b =>
    obtain ⟨hbmem, hbeq⟩ := g3 b hr
    refine ⟨b, ?_, hbmem, ?_⟩
    · unfold roundBest
      rw [hr]
    · rw [hbeq]
      linarith

lemma exists_fresh_class {cs cents : List V}
    (_hsub : ∀ s ∈ cents, s ∈ cs)
    (hlen : cents.length < ((cs.map wProj).dedup).length) :
    ∃ c ∈ cs, ∀ s ∈ cents, wProj c ≠ wProj s := by
  by_contra hcon
  push_neg at hcon
  have hsubset : (cs.map wProj).toFinset ⊆ (cents.map wProj).toFinset := by
    intro x hx
    rw [List.mem_toFinset, List.mem_map] at hx
    obtain ⟨c, hc, rfl⟩ := hx
    obtain ⟨s, hs, heq⟩ := hcon c hc
    rw [List.mem_toFinset, List.mem_map]
    exact ⟨s, hs, heq.symm⟩
  have h1 : (cs.map wProj).toFinset.card ≤ (cents.map wProj).toFinset.card :=
    Finset.card_le_card hsubset
  have h2 : (cents.map wProj).toFinset.card ≤ (cents.map wProj).length :=
    List.toFinset_card_le _
  have h2' : (cents.map wProj).length = cents.length := List.length_map _ _
  have h3 : (cs.map wProj).toFinset.card = ((cs.map wProj).dedup).length :=
    List.card_toFinset _
  omega

lemma seedGo_length_mono (cs : List V) :
    ∀ (r : Nat) (cents : List V),
      cents.length ≤ (seedGo cs r cents).length := by
  intro r
  induction r with
  | zero => intro cents; exact le_rfl
  | succ r ih =>
    intro cents
    rw [seedGo]
    cases roundBest cents cs with
    | some b => exact le_trans (by simp) (ih (cents ++ [b]))
    | none => exact ih cents

lemma seedGo_spec (cs : List V) :
    ∀ (r : Nat) (cents : List V),
      cents ≠ [] →
      (∀ s ∈ cents, s ∈ cs) →
      cents.Pairwise (fun a b => wProj a ≠ wProj b) →
      cents.length + r ≤ ((cs.map wProj).dedup).length →
      (seedGo cs r cents).length = cents.length + r ∧
      (∀ s ∈ seedGo cs r cents, s ∈ cs) ∧
      (seedGo cs r cents).Pairwise (fun a b => wProj a ≠ wProj b) := by
  intro r
  induction r with
  | zero =>
    intro cents _ h2 h3 _
    exact ⟨by rw [seedGo]; simp, h2, h3⟩
  | succ r ih =>
    intro cents h1 h2 h3 h4
    have hlt : cents.length < ((cs.map wProj).dedup).length := by omega
    obtain ⟨c, hc, hfresh⟩ := exists_fresh_class h2 hlt
    have hpos : 0 < minDistToCentroids cents c := by
      apply pyMin_pos (dists_ne_nil c h1)
      intro x hx
      obtain ⟨s, hs, rfl⟩ := List.mem_map.1 hx
      exact sqDist_pos_of_wProj_ne (hfresh s hs)
    obtain ⟨b, hb, hbmem, hbpos⟩ := roundBest_exists_pos ⟨c, hc, hpos⟩
    rw [seedGo, hb]
    have hbne : ∀ s ∈ cents, wProj b ≠ wProj s := by
      intro s hs heq
      have h0 : sqDist b s features = 0 := sqDist_zero_of_wProj_eq heq
      have hle : minDistToCentroids cents b ≤ sqDist b s features :=
        pyMin_le (List.mem_map_of_mem _ hs)
      rw [h0] at hle
      linarith
    obtain ⟨l1, l2, l3⟩ := ih (cents ++ [b])
      (by simp)
      (fun s hsm => by
        rcases List.mem_append.1 hsm with h | h
        · exact h2 s h
        · rw [List.mem_singleton.1 h]; exact hbmem)
      (by
        rw [List.pairwise_append]
        refine ⟨h3, List.pairwise_singleton _ _, ?_⟩
        intro a ha b' hb'
        rw [List.mem_singleton.1 hb']
        exact fun heq => hbne a ha heq.symm)
      (by simp; omega)
    refine ⟨?_, l2, l3⟩
    rw [l1]
    simp
    omega

/-! ### `banking_kmeans`-level wrappers -/

lemma banking_kmeans_iterations {cs : List V} {k cap : Nat}
    {cents : List V} {cls : List (List V)} {n : Nat}
    (h : banking_kmeans cs k cap = some (cents, cls, n)) : n ≤ cap := by
  cases cs with
  | nil => rw [banking_kmeans] at h; cases h
  | cons c0 rest =>
    cases cap with
    | zero => rw [banking_kmeans] at h; cases h
    | succ m =>
      rw [banking_kmeans] at h
      have := loopGo_count (m + 1) _ _ 0 _ h
      simpa using this

lemma banking_kmeans_struct {cs : List V} {k cap : Nat}
    {cents : List V} {cls : List (List V)} {n : Nat}
    (h : banking_kmeans cs k cap = some (cents, cls, n)) :
    ∃ Cp, assignClusters cs Cp k = some cls ∧
      updateCentroids cls Cp = some cents := by
  cases cs with
  | nil => rw [banking_kmeans] at h; cases h
  | cons c0 rest =>
    cases cap with
    | zero => rw [banking_kmeans] at h; cases h
    | succ m =>
      rw [banking_kmeans] at h
      exact loopGo_struct m _ _ 0 _ h

lemma seedCentroids_ne_nil (c0 : V) (cs : List V) (k : Nat) :
    seedCentroids c0 cs k ≠ [] := by
  have := seedGo_length_mono cs (k - 1) [c0]
  intro h
  rw [seedCentroids] at h
  rw [h] at this
  simp at this

/-- When seeding produced fewer than `k` centroids, the first UPDATING
phase reads `centroids` out of range (cluster `len(centroids)` is
necessarily empty), so the whole run fails. -/
lemma banking_kmeans_none_of_seeds_lt {c0 : V} {rest : List V} {k cap : Nat}
    (hcap : 1 ≤ cap)
    (hseeds : (seedCentroids c0 (c0 :: rest) k).length < k) :
    banking_kmeans (c0 :: rest) k cap = none := by
  obtain ⟨m, rfl⟩ : ∃ m, cap = m + 1 := ⟨cap - 1, by omega⟩
  rw [banking_kmeans]
  have hne : seedCentroids c0 (c0 :: rest) k ≠ [] :=
    seedCentroids_ne_nil c0 (c0 :: rest) k
  obtain ⟨cls, ha⟩ := assignGo_some hne (c0 :: rest) (List.replicate k [])
    (by simp; omega)
  have ha' : assignClusters (c0 :: rest) (seedCentroids c0 (c0 :: rest) k) k =
      some cls := ha
  have hclen : cls.length = k := assignClusters_length ha'
  have hempty : cls.getD (seedCentroids c0 (c0 :: rest) k).length [] = [] := by
    rw [assignClusters_getD ha' _ hseeds]
    rw [List.filter_eq_nil_iff]
    intro c _
    simp only [beq_iff_eq]
    exact Nat.ne_of_lt (closestIdx_lt hne)
  have hu : updateCentroids cls (seedCentroids c0 (c0 :: rest) k) = none := by
    apply updateGo_none
    exact ⟨(seedCentroids c0 (c0 :: rest) k).length,
      by rw [hclen]; exact hseeds, hempty, by simp⟩
  rw [loopGo]
  simp [ha', hu]

/-! ### Dictionary-level key lemmas (UPDATING builds exactly the
clustering feature set) -/

lemma dictKeys_set_new {d : Dict} {k : String} (h : k ∉ dictKeys d) (v : ℚ) :
    dictKeys (dictSet d k v) = dictKeys d ++ [k] := by
  unfold dictSet
  rw [if_neg h]
  simp [dictKeys]

lemma keys_foldl_set (val : String → ℚ) :
    ∀ (fs : List String) (d : Dict), fs.Nodup →
      (∀ f ∈ fs, f ∉ dictKeys d) →
      dictKeys (fs.foldl (fun d' f => dictSet d' f (val f)) d) =
        dictKeys d ++ fs := by
  intro fs
  induction fs with
  | nil => intro d _ _; simp
  | cons f fs ih =>
    intro d hnd hfresh
    simp only [List.foldl_cons]
    have hf : f ∉ dictKeys d := hfresh f (List.mem_cons_self _ _)
    have hkeys := dictKeys_set_new hf (val f)
    rw [ih (dictSet d f (val f)) (List.nodup_cons.1 hnd).2 ?fresh, hkeys,
      List.append_assoc, List.singleton_append]
    case fresh =>
      intro g hg
      rw [hkeys]
      intro hmem
      rcases List.mem_append.1 hmem with h' | h'
      · exact hfresh g (List.mem_cons_of_mem _ hg) h'
      · rw [List.mem_singleton.1 h'] at hg
        exact (List.nodup_cons.1 hnd).1 hg

/-- A centroid rebuilt by the UPDATING phase carries exactly the twelve
clustering feature keys, in source order, whatever the cluster is. -/
lemma newCentroidDict_keys (cluster : List Dict) :
    dictKeys (newCentroidDict cluster) = clusteringFeatureNames := by
  unfold newCentroidDict
  rw [keys_foldl_set _ clusteringFeatureNames [] (by decide)
    (by intro f _ h; cases h)]
  rfl

/-! ### Concrete example data -/

/-- A record whose features are all zero except `age_norm`. -/
def vAge (q : ℚ) : V := fun f =>
  match f with
  | .age_norm => q
  | _ => 0

/-- A record that differs from the all-zero record only in the unweighted
feature `revenue_norm`. -/
def vRev : V := fun f =>
  match f with
  | .revenue_norm => 1
  | _ => 0

/-- A six-record population on the `age_norm` axis whose first refinement
iteration moves the second centroid toward the record at `9/20`. -/
def pop6 : List V :=
  [vAge 0, vAge 0, vAge (9/20), vAge (11/20), vAge (11/20), vAge 1]

/-! ### Claim theorems -/

/-- C1 (counterexample): in the exact scenario the claim describes — the
empty cluster at index 0 comes before the non-empty cluster at index 1 —
the UPDATING phase carries over the empty cluster's *own previous*
centroid `centroids[0]` (the code reads `centroids[len(new_centroids)]`
from the *old* list, and `len(new_centroids)` always equals the cluster's
own index), and that value differs from the only already-updated centroid
in the output (the index-1 mean), contradicting the claimed carry-over
from the new-centroid sequence being built. -/
theorem c1_empty_cluster_counterexample :
    updateCentroids [[], [vAge 0, vAge 1]] [vAge (1/3), vAge 1] =
      some [vAge (1/3), featMean [vAge 0, vAge 1]] ∧
    vAge (1/3) = [vAge (1/3), vAge 1].getD 0 vzero ∧
    vAge (1/3) ≠ featMean [vAge 0, vAge 1] := by
  refine ⟨by decide, by decide, by decide⟩

/-- C1 (amended): whenever the UPDATING phase succeeds, every empty
cluster's new centroid is the *old* centroid list's entry at the empty
cluster's own index — never an already-updated value. -/
theorem c1_empty_cluster_carries_own_old_centroid
    (clusters : List (List V)) (cents C' : List V)
    (h : updateCentroids clusters cents = some C')
    (j : Nat) (hj : j < clusters.length)
    (hempty : clusters.getD j [] = []) :
    C'.getD j vzero = cents.getD j vzero := by
  obtain ⟨_, hspec⟩ := updateCentroids_spec h
  rw [hspec j hj, if_pos hempty]

/-- Witness for `c1_empty_cluster_carries_own_old_centroid`. -/
theorem c1_witness :
    (updateCentroids [[], [vAge 0, vAge 1]] [vAge (1/3), vAge 1] =
      some [vAge (1/3), featMean [vAge 0, vAge 1]] ∧
      (0 : Nat) < 2 ∧
      ([[], [vAge 0, vAge 1]] : List (List V)).getD 0 [] = []) ∧
    ([vAge (1/3), featMean [vAge 0, vAge 1]] : List V).getD 0 vzero =
      [vAge (1/3), vAge 1].getD 0 vzero :=
  ⟨⟨by decide, by decide, by decide⟩,
    c1_empty_cluster_carries_own_old_centroid
      [[], [vAge 0, vAge 1]] [vAge (1/3), vAge 1]
      [vAge (1/3), featMean [vAge 0, vAge 1]]
      (by decide) 0 (by decide) (by decide)⟩

/-- C2 (counterexample): the engine performs no cluster-count validation
at all.  With a population of two distinct records and `K = 2` (so `K` is
*not* strictly less than the population size), `banking_kmeans` completes
normally and returns a result — no `InvalidClusterCountError` (no such
error exists anywhere in the code), and centroids *are* computed. -/
theorem c2_no_entry_check_counterexample :
    banking_kmeans [vAge 0, vAge 1] 2 50 ≠ none ∧
    ([vAge 0, vAge 1] : List V).length ≤ 2 := by
  refine ⟨by decide, by decide⟩

/-- C2 (amended): there is no validation of K and no
`InvalidClusterCountError`; instead, whenever seeding selects fewer than
`K` centroids (which is what happens when `K` exceeds the number of
weighted-distinct records, but can also happen for `0 < K <` population
size), the run fails with an index error (modelled `none`) in the first
UPDATING phase — after centroids have already been computed, not at
entry. -/
theorem c2_no_validation_index_error (c0 : V) (rest : List V) (k cap : Nat)
    (hcap : 1 ≤ cap)
    (hseeds : (seedCentroids c0 (c0 :: rest) k).length < k) :
    banking_kmeans (c0 :: rest) k cap = none :=
  banking_kmeans_none_of_seeds_lt hcap hseeds

/-- Witness for `c2_no_validation_index_error`: two identical records,
`K = 2` — seeding yields a single centroid and the run fails. -/
theorem c2_witness :
    ((1 : Nat) ≤ 50 ∧
      (seedCentroids (vAge 0) [vAge 0, vAge 0] 2).length < 2) ∧
    banking_kmeans [vAge 0, vAge 0] 2 50 = none :=
  ⟨⟨by decide, by decide⟩,
    c2_no_validation_index_error (vAge 0) [vAge 0] 2 50
      (by decide) (by decide)⟩

/-- C3 (counterexample): two *distinct* NormalizedVectors that agree on
every weighted feature (they differ only in the unweighted
`revenue_norm`) yield only one seed for `K = 2`: the farthest-point round
finds no record at strictly positive distance and appends nothing, so
seeding does not return exactly `K` centroids. -/
theorem c3_seeding_counterexample :
    vzero ≠ vRev ∧
    (([vzero, vRev] : List V).dedup).length = 2 ∧
    (seedCentroids vzero [vzero, vRev] 2).length ≠ 2 := by
  refine ⟨by decide, by decide, by decide⟩

/-- C3 (amended): whenever the population contains at least `K` records
that are pairwise distinct *on the weighted (clustering) features*, the
seeding strategy returns exactly `K` initial centroids, each a copy of
some record, and no record is selected twice. -/
theorem c3_seeding_spread (c0 : V) (rest : List V) (k : Nat)
    (hk : 1 ≤ k)
    (hdist : k ≤ (((c0 :: rest).map wProj).dedup).length) :
    (seedCentroids c0 (c0 :: rest) k).length = k ∧
    (seedCentroids c0 (c0 :: rest) k).Nodup ∧
    ∀ s ∈ seedCentroids c0 (c0 :: rest) k, s ∈ c0 :: rest := by
  obtain ⟨l1, l2, l3⟩ := seedGo_spec (c0 :: rest) (k - 1) [c0]
    (by simp)
    (by intro s hs; rw [List.mem_singleton.1 hs]; exact List.mem_cons_self _ _)
    (List.pairwise_singleton _ _)
    (by simp only [List.length_singleton]; omega)
  refine ⟨?_, ?_, l2⟩
  · rw [seedCentroids, l1]
    simp only [List.length_singleton]
    omega
  · exact l3.imp fun h heq => h (by rw [heq])

/-- Witness for `c3_seeding_spread`: two records distinct on `age_norm`,
`K = 2`. -/
theorem c3_witness :
    ((1 : Nat) ≤ 2 ∧
      2 ≤ ((([vAge 0, vAge 1] : List V).map wProj).dedup).length) ∧
    ((seedCentroids (vAge 0) [vAge 0, vAge 1] 2).length = 2 ∧
      (seedCentroids (vAge 0) [vAge 0, vAge 1] 2).Nodup ∧
      ∀ s ∈ seedCentroids (vAge 0) [vAge 0, vAge 1] 2,
        s ∈ [vAge 0, vAge 1]) :=
  ⟨⟨by decide, by decide⟩,
    c3_seeding_spread (vAge 0) [vAge 1] 2 (by decide) (by decide)⟩

/-- A raw customer record with the numeric attributes
`preprocess_banking_data` reads (string-valued raw attributes are omitted
from the `ℚ`-valued dictionary model; they would only add further keys to
the record and hence to the seed centroid). -/
def exRawCustomer : Dict :=
  [("customerid", 1), ("age", 30), ("income", 100000),
   ("accounttenureyears", 5), ("avgbalance", 200000),
   ("balancevolatility", 1), ("loanamount", 0), ("creditscore", 700),
   ("creditutilizationratio", 1/2), ("delinquencycount", 0),
   ("monthlytransactions", 50), ("digitalusage", 60), ("dormantdays", 10),
   ("revenuecontribution", 50000), ("crosssellindex", 3)]

/-- C4 (counterexample): the seed centroid is `customers[0].copy()` — a
full record dictionary.  Its key set is *not* the NormalizedVector feature
set: it carries every raw field (e.g. `"age"`) on top of the fourteen
normalized features, so immediately after seeding the claimed invariant
fails. -/
theorem c4_seed_centroid_counterexample :
    dictKeys (seedCentroidDict [preprocess_banking_data exRawCustomer]) ≠
      normFeatureNames ∧
    "age" ∈ dictKeys (seedCentroidDict [preprocess_banking_data exRawCustomer]) ∧
    "age" ∉ normFeatureNames := by
  refine ⟨by decide, by decide, by decide⟩

/-- C4 (amended): only the centroids *rebuilt in the UPDATING phase* for
non-empty clusters have a fixed feature set, namely exactly the twelve
clustering features (not the full fourteen-feature NormalizedVector set);
seed centroids are full record copies carrying every record field. -/
theorem c4_updated_centroid_feature_set (cluster : List Dict)
    (_hne : cluster ≠ []) :
    dictKeys (newCentroidDict cluster) = clusteringFeatureNames :=
  newCentroidDict_keys cluster

/-- Witness for `c4_updated_centroid_feature_set`. -/
theorem c4_witness :
    ([preprocess_banking_data exRawCustomer] : List Dict) ≠ [] ∧
    dictKeys (newCentroidDict [preprocess_banking_data exRawCustomer]) =
      clusteringFeatureNames :=
  ⟨by decide,
    c4_updated_centroid_feature_set [preprocess_banking_data exRawCustomer]
      (by decide)⟩

lemma sqDist_filter (v1 v2 : V) (fs : List Feature) :
    sqDist v1 v2 fs = ((fs.filter (fun f => (weights f).isSome)).map
      (fun f => (weights f).getD 0 * (v1 f - v2 f) ^ 2)).sum := by
  induction fs with
  | nil => rfl
  | cons f fs ih =>
    simp only [sqDist, List.map_cons, List.sum_cons, List.filter_cons] at ih ⊢
    cases hw : weights f with
    | some w => simp [sqTerm, hw, ih]
    | none => simp [sqTerm, hw, ih]

lemma sqDist_update_left {v1 v2 : V} {fs : List Feature} {f : Feature}
    {q : ℚ} (hw : weights f = none) :
    sqDist (Function.update v1 f q) v2 fs = sqDist v1 v2 fs := by
  apply sum_map_congr
  intro g _
  by_cases hg : g = f
  · subst hg
    unfold sqTerm
    rw [hw]
  · unfold sqTerm
    rw [Function.update_noteq hg]

/-- C5: the distance function is `sqrt` of the sum over features present
in both the feature list and the weight map of
`weight[f] * (v1[f] - v2[f])^2`; features absent from the weight map
contribute zero, so changing only an unweighted feature of either input
never changes the result. -/
theorem c5_distance_spec :
    (∀ (v1 v2 : V) (fs : List Feature),
      calculate_banking_distance v1 v2 fs =
        Real.sqrt ((((fs.filter (fun f => (weights f).isSome)).map
          (fun f => (weights f).getD 0 * (v1 f - v2 f) ^ 2)).sum : ℚ) : ℝ)) ∧
    (∀ (v1 v2 : V) (fs : List Feature) (f : Feature) (q : ℚ),
      weights f = none →
      calculate_banking_distance (Function.update v1 f q) v2 fs =
        calculate_banking_distance v1 v2 fs ∧
      calculate_banking_distance v1 (Function.update v2 f q) fs =
        calculate_banking_distance v1 v2 fs) := by
  constructor
  · intro v1 v2 fs
    unfold calculate_banking_distance
    rw [sqDist_filter]
  · intro v1 v2 fs f q hw
    constructor
    · unfold calculate_banking_distance
      rw [sqDist_update_left hw]
    · unfold calculate_banking_distance
      rw [sqDist_comm, sqDist_update_left hw, sqDist_comm]

/-- Witness for `c5_distance_spec` (its second conjunct carries the
hypothesis `weights f = none`): perturbing `revenue_norm` leaves the
distance unchanged. -/
theorem c5_witness :
    weights Feature.revenue_norm = none ∧
    (calculate_banking_distance
        (Function.update vzero Feature.revenue_norm 5) (vAge 1) features =
      calculate_banking_distance vzero (vAge 1) features ∧
    calculate_banking_distance vzero
        (Function.update (vAge 1) Feature.revenue_norm 5) features =
      calculate_banking_distance vzero (vAge 1) features) :=
  ⟨rfl, (c5_distance_spec.2 vzero (vAge 1) features Feature.revenue_norm 5 rfl)⟩

/-- C6: on the clustering feature shape the distance is symmetric,
nonnegative, zero on identical inputs, and zero exactly when the two
vectors agree on every feature that has a weight. -/
theorem c6_distance_metric_properties : ∀ a b : V,
    calculate_banking_distance a b features =
      calculate_banking_distance b a features ∧
    0 ≤ calculate_banking_distance a b features ∧
    calculate_banking_distance a a features = 0 ∧
    (calculate_banking_distance a b features = 0 ↔
      ∀ f ∈ features, (weights f).isSome → a f = b f) := by
  intro a b
  refine ⟨?_, distance_nonneg a b features, ?_, ?_⟩
  · unfold calculate_banking_distance
    rw [sqDist_comm]
  · unfold calculate_banking_distance
    rw [sqDist_self]
    simp
  · rw [distance_eq_zero_iff, sqDist_eq_zero_iff]
    constructor
    · intro h f hf hsome
      obtain ⟨w, hw⟩ := Option.isSome_iff_exists.1 hsome
      exact (sqTerm_eq_zero_iff hw).1 (h f hf)
    · intro h f hf
      obtain ⟨w, hw⟩ := Option.isSome_iff_exists.1 (features_weighted f hf)
      exact (sqTerm_eq_zero_iff hw).2 (h f hf (by rw [hw]; rfl))

/-- C7: after every ASSIGNING phase (any nonempty centroid list of length
at most `k`, as holds throughout the loop), the phase succeeds, produces
exactly `k` cluster lists, and their concatenation is a permutation of the
input population — every record lands in exactly one cluster, none is
lost, none duplicated. -/
theorem c7_partition_completeness (cs cents : List V) (k : Nat)
    (h1 : cents ≠ []) (h2 : cents.length ≤ k) :
    ∃ cls, assignClusters cs cents k = some cls ∧ cls.length = k ∧
      cls.flatten.Perm cs := by
  obtain ⟨cls, hcls⟩ := assignGo_some h1 cs (List.replicate k [])
    (by simpa using h2)
  refine ⟨cls, hcls, ?_, ?_⟩
  · rw [assignGo_length hcls]
    simp
  · have := assignGo_flatten_perm hcls
    rwa [flatten_replicate_nil, List.nil_append] at this

/-- Witness for `c7_partition_completeness`. -/
theorem c7_witness :
    (([vAge 0, vAge 1] : List V) ≠ [] ∧
      ([vAge 0, vAge 1] : List V).length ≤ 2) ∧
    ∃ cls, assignClusters [vAge 0, vAge (1/2), vAge 1] [vAge 0, vAge 1] 2 =
      some cls ∧ cls.length = 2 ∧
      cls.flatten.Perm [vAge 0, vAge (1/2), vAge 1] :=
  ⟨⟨by decide, by decide⟩,
    c7_partition_completeness [vAge 0, vAge (1/2), vAge 1] [vAge 0, vAge 1] 2
      (by decide) (by decide)⟩

/-- C8: the refinement loop is a bounded `for` loop: every successful run
executes at most `max_iterations` iterations (in particular it terminates
within `iteration_cap + 1` iterations), whether or not the convergence
test ever succeeds. -/
theorem c8_iteration_bound (cs : List V) (k cap : Nat) (cents : List V)
    (cls : List (List V)) (n : Nat)
    (h : banking_kmeans cs k cap = some (cents, cls, n)) : n ≤ cap :=
  banking_kmeans_iterations h

/-- Witness for `c8_iteration_bound`: the two-record run converges after
one iteration, within the cap of 50. -/
theorem c8_witness :
    banking_kmeans [vAge 0, vAge 1] 2 50 =
      some ([featMean [vAge 0], featMean [vAge 1]], [[vAge 0], [vAge 1]], 1) ∧
    (1 : Nat) ≤ 50 :=
  ⟨by decide,
    c8_iteration_bound [vAge 0, vAge 1] 2 50 [featMean [vAge 0], featMean [vAge 1]]
      [[vAge 0], [vAge 1]] 1 (by decide)⟩

/-- C9: across the refinement loop, one full ASSIGNING + UPDATING
iteration never increases the total within-cluster weighted squared
distance (the sum over all records of the squared distance to the
centroid of the cluster the record is assigned to). -/
theorem c9_cost_monotone (cs cents : List V) (k : Nat)
    (cls : List (List V)) (C' : List V)
    (hk : 0 < k) (hlen : cents.length = k)
    (ha : assignClusters cs cents k = some cls)
    (hu : updateCentroids cls cents = some C') :
    totalCost cs C' ≤ totalCost cs cents := by
  rw [totalCost_eq, totalCost_eq]
  exact_mod_cast totalCostQ_step_le hk hlen ha hu

/-- Witness for `c9_cost_monotone`. -/
theorem c9_witness :
    ((0 : Nat) < 2 ∧ ([vAge 0, vAge 1] : List V).length = 2 ∧
      assignClusters [vAge 0, vAge (9/20), vAge 1] [vAge 0, vAge 1] 2 =
        some [[vAge 0, vAge (9/20)], [vAge 1]] ∧
      updateCentroids [[vAge 0, vAge (9/20)], [vAge 1]] [vAge 0, vAge 1] =
        some [featMean [vAge 0, vAge (9/20)], featMean [vAge 1]]) ∧
    totalCost [vAge 0, vAge (9/20), vAge 1]
        [featMean [vAge 0, vAge (9/20)], featMean [vAge 1]] ≤
      totalCost [vAge 0, vAge (9/20), vAge 1] [vAge 0, vAge 1] :=
  ⟨⟨by decide, by decide, by decide, by decide⟩,
    c9_cost_monotone [vAge 0, vAge (9/20), vAge 1] [vAge 0, vAge 1] 2
      [[vAge 0, vAge (9/20)], [vAge 1]]
      [featMean [vAge 0, vAge (9/20)], featMean [vAge 1]]
      (by decide) (by decide) (by decide) (by decide)⟩

set_option maxRecDepth 4000 in
/-- C10: the returned `ClusterAssignmentResult` mixes phases: the cluster
lists (which determine every record's integer label, lines 183-185) come
from the assignment computed against the centroids as they stood *before*
the final UPDATING pass, while the returned centroid list is the
post-update one; consequently, on the concrete six-record population
`pop6` with one iteration, the record at `9/20` is labeled cluster 0 yet
is strictly nearer (under the weighted distance) to the returned centroid
of cluster 1. -/
theorem c10_result_mixes_phases :
    (∀ (cs : List V) (k cap : Nat) (cents : List V)
      (cls : List (List V)) (n : Nat),
      banking_kmeans cs k cap = some (cents, cls, n) →
      ∃ Cp, assignClusters cs Cp k = some cls ∧
        updateCentroids cls Cp = some cents) ∧
    (∃ (cents : List V) (cls : List (List V)) (n : Nat),
      banking_kmeans pop6 2 1 = some (cents, cls, n) ∧
      vAge (9/20) ∈ cls.getD 0 [] ∧
      calculate_banking_distance (vAge (9/20)) (cents.getD 1 vzero)
          features <
        calculate_banking_distance (vAge (9/20)) (cents.getD 0 vzero)
          features) := by
  constructor
  · intro cs k cap cents cls n h
    exact banking_kmeans_struct h
  · refine ⟨[featMean [vAge 0, vAge 0, vAge (9/20)],
      featMean [vAge (11/20), vAge (11/20), vAge 1]],
      [[vAge 0, vAge 0, vAge (9/20)],
        [vAge (11/20), vAge (11/20), vAge 1]], 1,
      by decide, by decide, ?_⟩
    rw [distance_lt_iff]
    decide

/-- Witness for the universally quantified part of
`c10_result_mixes_phases`. -/
theorem c10_witness :
    banking_kmeans [vAge 0, vAge 1] 2 50 =
      some ([featMean [vAge 0], featMean [vAge 1]], [[vAge 0], [vAge 1]], 1) ∧
    ∃ Cp, assignClusters [vAge 0, vAge 1] Cp 2 = some [[vAge 0], [vAge 1]] ∧
      updateCentroids [[vAge 0], [vAge 1]] Cp =
        some [featMean [vAge 0], featMean [vAge 1]] :=
  ⟨by decide,
    c10_result_mixes_phases.1 [vAge 0, vAge 1] 2 50
      [featMean [vAge 0], featMean [vAge 1]]
      [[vAge 0], [vAge 1]] 1 (by decide)⟩

end CustomerSeg
